import Mathlib

/-
Verification of the Web3 Ecosystem Processor's record pipeline.

Strings of the JavaScript source are modelled as `List Char`.  Any function
that the source writes with a regular-expression replace is embedded as an
explicit fuel-based recursion on the character list; the fuel is always the
length of the input, which is enough for every step to consume at least one
character, so the zero-fuel branch (returning `[]`) is unreachable on the
actual calls and the definitions stay kernel-computable.
-/

/-- JavaScript strings, modelled as lists of characters. -/
abbrev Str := List Char

/-- The character class of the JavaScript regular expression `\s`
(whitespace): ASCII whitespace plus the Unicode space characters. -/
def jsWS (c : Char) : Bool :=
  c = '\t' || c = '\n' || c.toNat = 11 || c.toNat = 12 || c = '\r' || c = ' ' ||
  c.toNat = 0xa0 || c.toNat = 0x1680 ||
  (0x2000 ≤ c.toNat && c.toNat ≤ 0x200a) ||
  c.toNat = 0x2028 || c.toNat = 0x2029 || c.toNat = 0x202f ||
  c.toNat = 0x205f || c.toNat = 0x3000 || c.toNat = 0xfeff

/-- The character class `[\r\n]` of `popup.js`'s first sanitization step. -/
def isCRLF (c : Char) : Bool := c = '\r' || c = '\n'

/-- `s.replace(/X+/g, ' ')` for a character class `X`: every maximal run of
characters satisfying `p` becomes a single space.  Fuel-based so that it is
structurally recursive; called with fuel `= s.length`, which always
suffices. -/
def collapseRunsF (p : Char → Bool) : Nat → Str → Str
  | 0, _ => []
  | _ + 1, [] => []
  | f + 1, c :: rest =>
    if p c then ' ' :: collapseRunsF p f (rest.dropWhile p)
    else c :: collapseRunsF p f rest

/-- Entry point for the run-collapsing replace. -/
def collapseRuns (p : Char → Bool) (s : Str) : Str := collapseRunsF p s.length s

/-- JavaScript `String.prototype.trim()`: drop leading and trailing
whitespace. -/
def jsTrim (s : Str) : Str :=
  ((s.dropWhile jsWS).reverse.dropWhile jsWS).reverse

/-- Does `pat` occur at the head of `s`? -/
def listStartsWith : Str → Str → Bool
  | [], _ => true
  | _ :: _, [] => false
  | p :: ps, c :: cs => p = c && listStartsWith ps cs

/-- `s.replace(/pat/g, repl)` for a literal pattern `pat`: replace every
non-overlapping occurrence, scanning left to right, without rescanning the
replacement text.  Fuel-based; fuel `= s.length` always suffices because
each step consumes at least one character (`pat` is non-empty at every call
site). -/
def replaceAllF (pat repl : Str) : Nat → Str → Str
  | 0, _ => []
  | _ + 1, [] => []
  | f + 1, c :: rest =>
    if pat ≠ [] ∧ listStartsWith pat (c :: rest) = true then
      repl ++ replaceAllF pat repl f ((c :: rest).drop pat.length)
    else
      c :: replaceAllF pat repl f rest

/-- Entry point for the literal-pattern replace. -/
def replaceAll (pat repl s : Str) : Str := replaceAllF pat repl s.length s

/-- `val.replace(/,/g, ';')` — the last sanitization step of `toCSV`. -/
def commaMap (s : Str) : Str := s.map (fun c => if c = ',' then ';' else c)

/-- The HTML-entity decoding chain of `toCSV`'s sanitizer, in source order:
`&amp;` then `&lt;` then `&gt;` then `&#39;` then `&quot;`. -/
def decodeEntities (s : Str) : Str :=
  replaceAll ("&quot;").data ('"' :: [])
    (replaceAll ("&#39;").data ('\'' :: [])
      (replaceAll ("&gt;").data ('>' :: [])
        (replaceAll ("&lt;").data ('<' :: [])
          (replaceAll ("&amp;").data ('&' :: []) s))))

/-- The cell sanitizer of `toCSV` (`popup.js` lines 255-263): strip CR/LF
runs, collapse whitespace, trim, decode HTML entities, then turn commas
into semicolons. -/
def sanitizeCell (v : Str) : Str :=
  commaMap (decodeEntities (jsTrim (collapseRuns jsWS (collapseRuns isCRLF v))))

/-- Split on a separator character; `n` separators yield `n + 1` parts. -/
def splitOnChar (sep : Char) : Str → List Str
  | [] => [[]]
  | c :: rest =>
    match splitOnChar sep rest with
    | [] => [[c]]
    | h :: t => if c = sep then [] :: h :: t else (c :: h) :: t

/-- JavaScript `Array.prototype.join(sep)`. -/
def joinWithSep (sep : Str) : List Str → Str
  | [] => []
  | [x] => x
  | x :: y :: t => x ++ sep ++ joinWithSep sep (y :: t)

/-- `twitter.replace(/^@/, '')`: drop a single leading `@`. -/
def stripLeadAt : Str → Str
  | '@' :: rest => rest
  | s => s

/-- JavaScript `String.prototype.toLowerCase()` (per character). -/
def lowerStr (s : Str) : Str := s.map Char.toLower

/-
Data model.  A scraped project record, as produced by the content scripts
and consumed by `toCSV` and by the enrichment steps.  Missing JavaScript
fields are the empty string (`[]`); `tvl` is the only numeric field.
-/

/-- One scraped project record. -/
structure Project where
  name : Str
  description : Str
  category : Str
  website : Str
  twitter : Str
  telegram : Str
  discord : Str
  chain : Str
  slug : Str
  logo : Str
  tvl : Int
deriving DecidableEq

attribute [ext] Project

/-- A project record with every field empty. -/
def emptyProject : Project :=
  { name := [], description := [], category := [], website := [], twitter := [],
    telegram := [], discord := [], chain := [], slug := [], logo := [], tvl := 0 }

/-
`toCSV` (`popup.js` lines 172-267).  The 27-column header list, the DeFi
category set, the raw row of 27 values, the per-cell sanitizer applied via
`.map`, and the final join.
-/

/-- The 27 fixed column headers of the team standard, in schema order. -/
def headers : List Str :=
  [("Project Name").data,
   ("Suspect USDT support?").data,
   ("Skip").data,
   ("Added").data,
   ("Web3 but no stablecoin").data,
   ("General Stablecoin Adoption").data,
   ("To be Added").data,
   ("Processed?").data,
   ("In Admin").data,
   ("TG/TON appstore (no main URL)").data,
   ("Final Status").data,
   ("Website").data,
   ("X Link").data,
   ("X Handle").data,
   ("Telegram").data,
   ("Category").data,
   ("Release Date").data,
   ("Product Status").data,
   ("The Grid Status").data,
   ("Profile Name").data,
   ("Root ID").data,
   ("Matched URL").data,
   ("Matched via").data,
   ("Chain").data,
   ("Source").data,
   ("Notes").data,
   ("Evidence URLs").data]

/-- The DeFi categories that mark a row "Suspect USDT support?". -/
def defiCategories : List Str :=
  [("CEX").data, ("Dexes").data, ("Lending").data, ("Derivatives").data,
   ("Bridge").data, ("RWA").data, ("DeFi").data, ("Exchanges").data,
   ("Yield").data, ("Liquid Staking").data, ("Payments").data,
   ("Launchpad").data]

/-- The 27 raw (unsanitized) cell values of one CSV row, in schema order.
`chainName` is `getSelectedChainName()` and `sourceSite` the site label,
both free inputs of `toCSV` in the source. -/
def rawCells (chainName sourceSite : Str) (item : Project) : List Str :=
  let category := item.category
  let isDefi := defiCategories.contains category
  let handleClean := stripLeadAt item.twitter
  let xLink := if handleClean = [] then [] else ("https://x.com/").data ++ handleClean
  let notes := joinWithSep (" - ").data
    ((if category = [] then [] else [category ++ (" from ").data ++ sourceSite]) ++
     (if item.description = [] then [] else [item.description]))
  [item.name,
   (if isDefi then ("TRUE").data else []),
   [],
   [],
   (if isDefi then [] else ("TRUE").data),
   [],
   [],
   [],
   [],
   [],
   [],
   item.website,
   xLink,
   item.twitter,
   item.telegram,
   category,
   [],
   [],
   [],
   [],
   [],
   [],
   [],
   (if item.chain = [] then chainName else item.chain),
   sourceSite,
   notes,
   []]

/-- One sanitized CSV row: the raw values with the cell sanitizer mapped
over them. -/
def rowCells (chainName sourceSite : Str) (item : Project) : List Str :=
  (rawCells chainName sourceSite item).map sanitizeCell

/-- `toCSV`: empty input yields the empty string, otherwise the header line
followed by one comma-joined line per record, joined by newlines. -/
def toCSV (data : List Project) (chainName sourceSite : Str) : Str :=
  if data = [] then []
  else
    joinWithSep ('\n' :: [])
      (joinWithSep (',' :: []) headers ::
        data.map (fun item => joinWithSep (',' :: []) (rowCells chainName sourceSite item)))

/-
The generic-discovery in-scrape deduplication (`scraper-engine.js` lines
578-589): `addProject` keys a seen-set by `p.name.toLowerCase().trim()` and
drops any later project whose key was already seen; projects without a name
of at least two characters are dropped outright.
-/

/-- The seen-set key of `addProject`. -/
def addProjectKey (p : Project) : Str := jsTrim (lowerStr p.name)

/-- The accumulation of `addProject` over a scrape, with explicit seen-set. -/
def addProjects (seen : List Str) : List Project → List Project
  | [] => []
  | p :: rest =>
    if p.name.length < 2 ∨ addProjectKey p ∈ seen then addProjects seen rest
    else p :: addProjects (addProjectKey p :: seen) rest

/-
Enrichment (`scraper-engine.js` lines 451-495), specialized to the
repository's only `enrich` configuration (`config/sites/defillama.js`):
`lookupBy: ['slug', 'name']` and `fieldMap: { website: 'url', twitter:
prefixAt, description: 'description', logo: 'logo' }`.
-/

/-- One item of the enrichment API response (`api.llama.fi/protocols`). -/
structure ApiItem where
  name : Str
  slug : Str
  url : Str
  twitter : Str
  description : Str
  logo : Str
deriving DecidableEq

/-- The lookup dictionary built for one key: only items with a non-empty
key are stored, keyed by the lowercased key, later items overwriting
earlier ones. -/
def lookupByKey (keyOf : ApiItem → Str) (allData : List ApiItem) (q : Str) : Option ApiItem :=
  List.foldl
    (fun acc it => if keyOf it ≠ [] ∧ lowerStr (keyOf it) = q then some it else acc)
    none allData

/-- One lookup attempt: a falsy (empty) project value never hits. -/
def tryLookup (keyOf : ApiItem → Str) (allData : List ApiItem) (v : Str) : Option ApiItem :=
  if v = [] then none else lookupByKey keyOf allData (lowerStr v)

/-- Match a project against the API response by slug first, then by name —
the `lookupBy` loop of `executeEnrichment`, and equally the
`bySlug[...] || byName[...]` chain of the DefiLlama content script. -/
def findApiData (allData : List ApiItem) (p : Project) : Option ApiItem :=
  match tryLookup ApiItem.slug allData p.slug with
  | some it => some it
  | none => tryLookup ApiItem.name allData p.name

/-- `if (!project[field] && value) project[field] = value` — fill only an
empty field, and only with a truthy value. -/
def backfill (old v : Str) : Str := if old = [] ∧ v ≠ [] then v else old

/-- The `prefixAt` transform of the engine's built-in transforms. -/
def prefixAt (v : Str) : Str :=
  if v = [] then []
  else
    let clean := jsTrim (stripLeadAt v)
    if clean = [] then [] else '@' :: clean

/-- `executeEnrichment`'s per-project update under the DefiLlama `enrich`
field map: backfill `website`, `twitter`, `description`, `logo` from the
matched API item; untouched when no item matches. -/
def enrichProject (allData : List ApiItem) (p : Project) : Project :=
  match findApiData allData p with
  | none => p
  | some a =>
    { p with
      website := backfill p.website a.url
      twitter := backfill p.twitter (prefixAt a.twitter)
      description := backfill p.description a.description
      logo := backfill p.logo a.logo }

/-- The three outcomes of the enrichment API fetch: a parsed response, a
non-ok HTTP status (early `return`), or a thrown network error (caught by
the surrounding `try`). -/
inductive FetchOutcome where
  | ok (allData : List ApiItem)
  | httpError
  | networkError
deriving DecidableEq

/-- `executeEnrichment` over the whole project list: on any fetch failure
the projects are left untouched. -/
def executeEnrichment : FetchOutcome → List Project → List Project
  | .ok allData, ps => ps.map (enrichProject allData)
  | .httpError, ps => ps
  | .networkError, ps => ps

/-- The terminal message of a scrape run. -/
inductive ScrapeOutcome where
  | complete (data : List Project)
  | scrapeFailed (msg : Str)
deriving DecidableEq

/-- Steps 5-6 of `runScraper` (`scraper-engine.js` lines 1204-1211): run
enrichment over the scraped projects (its failures are swallowed inside
`executeEnrichment`) and send `scrapeComplete` with the resulting data. -/
def runScraperFinish (fetch : FetchOutcome) (scraped : List Project) : ScrapeOutcome :=
  .complete (executeEnrichment fetch scraped)

/-- `enrichWithApiData`'s per-project update (`content-scripts/defillama.js`
lines 141-151): on a match the four fields are assigned unconditionally. -/
def dlEnrichProject (allProtocols : List ApiItem) (p : Project) : Project :=
  match findApiData allProtocols p with
  | none => p
  | some a =>
    { p with
      website := a.url
      twitter := if a.twitter = [] then [] else '@' :: a.twitter
      description := a.description
      logo := a.logo }

/-- `enrichWithApiData` over the scraped projects. -/
def enrichWithApiData (allProtocols : List ApiItem) (ps : List Project) : List Project :=
  ps.map (dlEnrichProject allProtocols)

/-
The `startScraping` message handlers (`scraper-engine.js` lines 1259-1276
and `content-scripts/defillama.js` lines 268-278).
-/

/-- The mutable state of a content-script scraper. -/
structure EngineState where
  isScanning : Bool
  scrapedProjects : List Project
deriving DecidableEq

/-- The `sendResponse` payload. -/
structure StartResponse where
  success : Bool
  error : Option Str
deriving DecidableEq

/-- The engine's `startScraping` handler: result state, response, and
whether `runScraper` was started.  `configFound` is whether
`findMatchingConfig` returned a config. -/
def handleStartScraping (st : EngineState) (configFound : Bool) :
    EngineState × StartResponse × Bool :=
  if st.isScanning = false then
    if configFound then
      ({ isScanning := true, scrapedProjects := [] }, { success := true, error := none }, true)
    else
      (st, { success := false, error := some (("No scraper config for this site").data) }, false)
  else
    (st, { success := false, error := some (("Already scanning").data) }, false)

/-- The DefiLlama content script's `startScraping` handler. -/
def dlHandleStartScraping (st : EngineState) : EngineState × StartResponse × Bool :=
  if st.isScanning = false then
    ({ isScanning := true, scrapedProjects := [] }, { success := true, error := none }, true)
  else
    (st, { success := false, error := some (("Already scanning").data) }, false)

/-
The Deduplicator.  The pipeline's dedup stage (`dedup_csv.py`, described in
`.ralph/progress.md`) is not among the provided source files, so it is
modelled from the spec below.
-/

/-- Modelled from the spec: the suffix tokens stripped by
`normalize_name` — "common corporate/product suffixes (e.g., 'Protocol',
'Finance', 'Labs', 'V2', version tags)".  (`lib/matching.py` is not under
the provided sources.) -/
def suffixTokens : List Str :=
  [("protocol").data, ("finance").data, ("labs").data, ("v2").data, ("v3").data]

/-- Drop trailing suffix tokens from a reversed token list, keeping at
least one token. -/
def stripSuffixTokensRev : List Str → List Str
  | [] => []
  | t :: rest =>
    if t ∈ suffixTokens ∧ rest ≠ [] then stripSuffixTokensRev rest else t :: rest

/-- Modelled from the spec: `normalize_name` — "strips common
corporate/product suffixes ..., lowercases, strips punctuation, collapses
whitespace"; total and best-effort.  (`lib/matching.py` is not under the
provided sources.) -/
def normalize_name (s : Str) : Str :=
  let cleaned :=
    jsTrim (collapseRuns jsWS ((lowerStr s).filter (fun c => c.isAlphanum || jsWS c)))
  let toks := (splitOnChar ' ' cleaned).filter (fun t => t ≠ [])
  joinWithSep ([' ']) (stripSuffixTokensRev toks.reverse).reverse

/-- Everything after the first `://`, if a scheme is present. -/
def afterScheme : Str → Option Str
  | ':' :: '/' :: '/' :: rest => some rest
  | _ :: rest => afterScheme rest
  | [] => none

/-- Modelled from the spec: `normalize_domain` — "extracts the registrable
domain (strips scheme, `www.`, path, query/tracking parameters)"; total and
best-effort.  (`lib/matching.py` is not under the provided sources.) -/
def normalize_domain (url : Str) : Str :=
  let noScheme := (afterScheme url).getD url
  let noW := if listStartsWith (("www.").data) noScheme then noScheme.drop 4 else noScheme
  lowerStr ((jsTrim noW).takeWhile (fun c => !(c = '/' || c = '?' || c = '#')))

/-- A row of the tabular record store, restricted to the fields the
Deduplicator reads and writes. -/
structure StoreRecord where
  name : Str
  website : Str
  category : Str
  twitter : Str
  notes : Str
deriving DecidableEq

/-- Modelled from the spec: the Deduplicator's grouping rule — "Two records
group together if normalized names match AND (domains match OR one/both
domains are empty)."  (`dedup_csv.py` is not under the provided sources.) -/
def sameGroup (a b : StoreRecord) : Prop :=
  normalize_name a.name = normalize_name b.name ∧
  (normalize_domain a.website = normalize_domain b.website ∨
   normalize_domain a.website = [] ∨ normalize_domain b.website = [])

instance (a b : StoreRecord) : Decidable (sameGroup a b) := by
  unfold sameGroup; infer_instance

/-- Modelled from the spec: the Deduplicator's merge — union non-empty
fields, first non-empty wins, and append merge provenance to Notes.
(`dedup_csv.py` is not under the provided sources.) -/
def mergeRecords (a b : StoreRecord) : StoreRecord :=
  { name := a.name
    website := if a.website = [] then b.website else a.website
    category := if a.category = [] then b.category else a.category
    twitter := if a.twitter = [] then b.twitter else a.twitter
    notes := a.notes ++ (" (dedup: merged from ").data ++ a.name ++ ("; ").data ++
      b.name ++ (")").data }

/-- Fold one record into the deduplicated output: merge it into the first
record of its group, or append it as a new record. -/
def dedupInsert (acc : List StoreRecord) (r : StoreRecord) : List StoreRecord :=
  match acc with
  | [] => [r]
  | x :: rest => if sameGroup x r then mergeRecords x r :: rest else x :: dedupInsert rest r

/-- Modelled from the spec: the Deduplicator over a record list.
(`dedup_csv.py` is not under the provided sources.) -/
def dedup (rs : List StoreRecord) : List StoreRecord := rs.foldl dedupInsert []

/-- The neutralized shape of a sanitized cell: every whitespace character
is a plain space, no two whitespace characters are adjacent, and neither
end is whitespace. -/
def Sanitary (s : Str) : Prop :=
  (∀ c ∈ s, jsWS c = true → c = ' ') ∧
  List.Chain' (fun a b => jsWS a = false ∨ jsWS b = false) s ∧
  (∀ c, s.head? = some c → jsWS c = false) ∧
  (∀ c, s.getLast? = some c → jsWS c = false)

/-- A flag column holds either the string `TRUE` or the empty string. -/
def flagCell (o : Option Str) : Prop := o = some (("TRUE").data) ∨ o = some []

/-- A sample record for concrete instantiations. -/
def wRowProject : Project :=
  { emptyProject with name := ("Swap, \n Labs").data, category := ("Dexes").data }

/-- A state with a scrape run in progress. -/
def wBusyState : EngineState := { isScanning := true, scrapedProjects := [emptyProject] }

/-- A record `q` preserves `p`'s data: the fields the enrichment never
targets are unchanged, and each enrichable field that was non-empty keeps
its value. -/
def preservesNonEmpty (p q : Project) : Prop :=
  q.name = p.name ∧ q.category = p.category ∧ q.chain = p.chain ∧ q.slug = p.slug ∧
  q.telegram = p.telegram ∧ q.discord = p.discord ∧ q.tvl = p.tvl ∧
  (p.website ≠ [] → q.website = p.website) ∧
  (p.twitter ≠ [] → q.twitter = p.twitter) ∧
  (p.description ≠ [] → q.description = p.description) ∧
  (p.logo ≠ [] → q.logo = p.logo)

/-- A record whose enrichable fields are all empty. -/
def wEmptyFieldsProject : Project :=
  { emptyProject with name := ("Thala").data, slug := ("thala").data }

/-- A record carrying a non-empty website before enrichment. -/
def cexProject : Project :=
  { emptyProject with name := ("Thala").data, website := ("https://a.example").data }

/-- An API item matching `cexProject` by name but with a different URL. -/
def cexApiItem : ApiItem :=
  { name := ("Thala").data, slug := ("thala").data, url := ("https://b.example").data,
    twitter := [], description := [], logo := [] }

/-- A record named AuroraSwap on its own domain. -/
def wRecordA : StoreRecord :=
  { name := ("AuroraSwap").data, website := ("https://auroraswap.example").data,
    category := [], twitter := [], notes := [] }

/-- A record with the same normalized name on a different domain. -/
def wRecordB : StoreRecord :=
  { name := ("auroraswap").data, website := ("https://b-aurora.example").data,
    category := [], twitter := [], notes := [] }

/-
Lemmas about the string machinery.
-/

theorem head?_dropWhile_false {p : Char → Bool} :
    ∀ {l : Str} {d : Char}, (l.dropWhile p).head? = some d → p d = false := by
  intro l
  induction l with
  | nil => intro d h; simp [List.dropWhile] at h
  | cons a rest ih =>
    intro d h
    rw [List.dropWhile_cons] at h
    cases ha : p a with
    | false =>
      rw [ha] at h
      simp only [Bool.false_eq_true, if_false, List.head?_cons, Option.some.injEq] at h
      rw [← h]; exact ha
    | true =>
      rw [ha] at h
      simp only [if_true] at h
      exact ih h

theorem getLast?_dropWhile_ne_nil {p : Char → Bool} :
    ∀ {l : Str}, l.dropWhile p ≠ [] → (l.dropWhile p).getLast? = l.getLast? := by
  intro l
  induction l with
  | nil => intro h; simp [List.dropWhile] at h
  | cons a rest ih =>
    intro h
    rw [List.dropWhile_cons] at h ⊢
    cases ha : p a with
    | true =>
      rw [ha] at h
      simp only [if_true] at h ⊢
      have hrest : rest ≠ [] := by
        intro he; rw [he] at h; simp [List.dropWhile] at h
      rw [ih h]
      cases rest with
      | nil => exact absurd rfl hrest
      | cons b t => rw [List.getLast?_cons_cons]
    | false =>
      simp only [Bool.false_eq_true, if_false]

theorem chain'_dropWhile {R : Char → Char → Prop} {p : Char → Bool} :
    ∀ {l : Str}, List.Chain' R l → List.Chain' R (l.dropWhile p) := by
  intro l
  induction l with
  | nil => intro h; simp [List.dropWhile]
  | cons a rest ih =>
    intro h
    rw [List.dropWhile_cons]
    cases ha : p a with
    | true => simp only [if_true]; exact ih h.tail
    | false => simp only [Bool.false_eq_true, if_false]; exact h

theorem chain'_drop {R : Char → Char → Prop} :
    ∀ (k : Nat) {l : Str}, List.Chain' R l → List.Chain' R (l.drop k) := by
  intro k
  induction k with
  | zero => intro l h; simpa using h
  | succ n ih =>
    intro l h
    rw [← List.drop_tail]
    exact ih h.tail

theorem getLast?_drop_ne_nil :
    ∀ {l : Str} (k : Nat), l.drop k ≠ [] → (l.drop k).getLast? = l.getLast? := by
  intro l
  induction l with
  | nil => intro k h; simp at h
  | cons a rest ih =>
    intro k h
    cases k with
    | zero => rfl
    | succ n =>
      rw [List.drop_succ_cons] at h ⊢
      have hrest : rest ≠ [] := by
        intro he; rw [he] at h; simp at h
      rw [ih n h]
      cases rest with
      | nil => exact absurd rfl hrest
      | cons b t => rw [List.getLast?_cons_cons]

theorem mem_collapseRunsF {p : Char → Bool} :
    ∀ {f : Nat} {s : Str} {c : Char},
      c ∈ collapseRunsF p f s → c = ' ' ∨ (c ∈ s ∧ p c = false) := by
  intro f
  induction f with
  | zero => intro s c h; simp [collapseRunsF] at h
  | succ n ih =>
    intro s c h
    cases s with
    | nil => simp [collapseRunsF] at h
    | cons a rest =>
      rw [collapseRunsF] at h
      cases ha : p a with
      | true =>
        rw [ha] at h
        simp only [if_true, List.mem_cons] at h
        rcases h with h | h
        · exact Or.inl h
        · rcases ih h with h1 | ⟨h2, h3⟩
          · exact Or.inl h1
          · exact Or.inr ⟨List.mem_cons_of_mem a ((List.dropWhile_sublist p).subset h2), h3⟩
      | false =>
        rw [ha] at h
        simp only [Bool.false_eq_true, if_false, List.mem_cons] at h
        rcases h with h | h
        · subst h; exact Or.inr ⟨List.mem_cons_self c rest, ha⟩
        · rcases ih h with h1 | ⟨h2, h3⟩
          · exact Or.inl h1
          · exact Or.inr ⟨List.mem_cons_of_mem a h2, h3⟩

theorem head?_collapseRunsF_dropWhile {f : Nat} {s : Str} {y : Char}
    (h : (collapseRunsF jsWS f (s.dropWhile jsWS)).head? = some y) : jsWS y = false := by
  cases f with
  | zero => simp [collapseRunsF] at h
  | succ n =>
    cases hd : s.dropWhile jsWS with
    | nil => rw [hd] at h; simp [collapseRunsF] at h
    | cons d l =>
      have hdws : jsWS d = false := head?_dropWhile_false (by rw [hd]; rfl)
      rw [hd, collapseRunsF] at h
      simp only [hdws, Bool.false_eq_true, if_false, List.head?_cons, Option.some.injEq] at h
      rw [← h]; exact hdws

theorem chain'_collapseRunsF :
    ∀ {f : Nat} {s : Str},
      List.Chain' (fun a b => jsWS a = false ∨ jsWS b = false) (collapseRunsF jsWS f s) := by
  intro f
  induction f with
  | zero => intro s; simp [collapseRunsF]
  | succ n ih =>
    intro s
    cases s with
    | nil => simp [collapseRunsF]
    | cons a rest =>
      rw [collapseRunsF]
      cases ha : jsWS a with
      | true =>
        simp only [if_true]
        rw [List.chain'_cons']
        refine ⟨?_, ih⟩
        intro y hy
        exact Or.inr (head?_collapseRunsF_dropWhile hy)
      | false =>
        simp only [Bool.false_eq_true, if_false]
        rw [List.chain'_cons']
        refine ⟨?_, ih⟩
        intro y _
        exact Or.inl ha

theorem mem_replaceAllF {pat repl : Str} :
    ∀ {f : Nat} {s : Str} {c : Char},
      c ∈ replaceAllF pat repl f s → c ∈ s ∨ c ∈ repl := by
  intro f
  induction f with
  | zero => intro s c h; simp [replaceAllF] at h
  | succ n ih =>
    intro s c h
    cases s with
    | nil => simp [replaceAllF] at h
    | cons a rest =>
      rw [replaceAllF] at h
      by_cases hc : pat ≠ [] ∧ listStartsWith pat (a :: rest) = true
      · rw [if_pos hc] at h
        rcases List.mem_append.mp h with h | h
        · exact Or.inr h
        · rcases ih h with h1 | h1
          · exact Or.inl (List.drop_subset _ _ h1)
          · exact Or.inr h1
      · rw [if_neg hc] at h
        rcases List.mem_cons.mp h with h | h
        · subst h; exact Or.inl (List.mem_cons_self c rest)
        · rcases ih h with h1 | h1
          · exact Or.inl (List.mem_cons_of_mem a h1)
          · exact Or.inr h1

theorem head?_replaceAllF {pat : Str} {r : Char} {f : Nat} {s : Str} {c : Char}
    (h : (replaceAllF pat (r :: []) f s).head? = some c) :
    s.head? = some c ∨ c = r := by
  cases f with
  | zero => simp [replaceAllF] at h
  | succ n =>
    cases s with
    | nil => simp [replaceAllF] at h
    | cons a rest =>
      rw [replaceAllF] at h
      by_cases hc : pat ≠ [] ∧ listStartsWith pat (a :: rest) = true
      · rw [if_pos hc] at h
        rw [List.singleton_append, List.head?_cons] at h
        exact Or.inr (Option.some.inj h).symm
      · rw [if_neg hc] at h
        rw [List.head?_cons] at h
        exact Or.inl (by rw [List.head?_cons, h])

theorem replaceAllF_cons_ne_nil {pat : Str} {r : Char} {rl : Str} :
    ∀ {f : Nat} {s : Str}, s ≠ [] → 1 ≤ f → replaceAllF pat (r :: rl) f s ≠ [] := by
  intro f s hs hf
  cases f with
  | zero => omega
  | succ n =>
    cases s with
    | nil => exact absurd rfl hs
    | cons a rest =>
      rw [replaceAllF]
      by_cases hc : pat ≠ [] ∧ listStartsWith pat (a :: rest) = true
      · rw [if_pos hc]; simp
      · rw [if_neg hc]; simp

theorem getLast?_replaceAllF {pat : Str} {r : Char} :
    ∀ {f : Nat} {s : Str} {c : Char}, pat ≠ [] → s.length ≤ f →
      (replaceAllF pat (r :: []) f s).getLast? = some c →
      s.getLast? = some c ∨ c = r := by
  intro f
  induction f with
  | zero =>
    intro s c hp hf h
    have hs : s = [] := List.length_eq_zero.mp (Nat.le_zero.mp hf)
    subst hs; simp [replaceAllF] at h
  | succ n ih =>
    intro s c hp hf h
    cases s with
    | nil => simp [replaceAllF] at h
    | cons a rest =>
      have hp1 : 1 ≤ pat.length := by
        cases hpat : pat with
        | nil => exact absurd hpat hp
        | cons x xs => simp [hpat]
      rw [replaceAllF] at h
      by_cases hc : pat ≠ [] ∧ listStartsWith pat (a :: rest) = true
      · rw [if_pos hc] at h
        have hdlen : ((a :: rest).drop pat.length).length ≤ n := by
          rw [List.length_drop]
          have hr1 : rest.length ≤ n := by
            have := hf; simp only [List.length_cons] at this; omega
          simp only [List.length_cons]
          omega
        cases hrec : replaceAllF pat (r :: []) n ((a :: rest).drop pat.length) with
        | nil =>
          rw [hrec] at h
          simp only [List.append_nil] at h
          rw [List.getLast?_singleton] at h
          exact Or.inr (Option.some.inj h).symm
        | cons b t =>
          rw [hrec, List.singleton_append, List.getLast?_cons_cons, ← hrec] at h
          rcases ih hp hdlen h with h1 | h1
          · have hdne : (a :: rest).drop pat.length ≠ [] := by
              intro he; rw [he] at hrec
              cases n <;> simp [replaceAllF] at hrec
            rw [getLast?_drop_ne_nil pat.length hdne] at h1
            exact Or.inl h1
          · exact Or.inr h1
      · rw [if_neg hc] at h
        cases hrec : replaceAllF pat (r :: []) n rest with
        | nil =>
          rw [hrec] at h
          rw [List.getLast?_singleton] at h
          cases hrest : rest with
          | nil =>
            rw [List.getLast?_singleton]
            exact Or.inl h
          | cons x xs =>
            exfalso
            have hn1 : 1 ≤ n := by
              have := hf; rw [hrest] at this; simp only [List.length_cons] at this; omega
            exact replaceAllF_cons_ne_nil (by rw [hrest]; simp) hn1 hrec
        | cons b t =>
          rw [hrec, List.getLast?_cons_cons, ← hrec] at h
          have hlen : rest.length ≤ n := by
            have := hf; simp only [List.length_cons] at this; omega
          rcases ih hp hlen h with h1 | h1
          · have hrestne : rest ≠ [] := by
              intro he; rw [he] at hrec
              cases n <;> simp [replaceAllF] at hrec
            cases hrest2 : rest with
            | nil => exact absurd hrest2 hrestne
            | cons x xs =>
              rw [List.getLast?_cons_cons, ← hrest2]
              exact Or.inl h1
          · exact Or.inr h1

theorem chain'_replaceAllF {pat : Str} {r : Char} (hr : jsWS r = false) :
    ∀ {f : Nat} {s : Str},
      List.Chain' (fun a b => jsWS a = false ∨ jsWS b = false) s →
      List.Chain' (fun a b => jsWS a = false ∨ jsWS b = false)
        (replaceAllF pat (r :: []) f s) := by
  intro f
  induction f with
  | zero => intro s h; simp [replaceAllF]
  | succ n ih =>
    intro s h
    cases s with
    | nil => simp [replaceAllF]
    | cons a rest =>
      rw [replaceAllF]
      by_cases hc : pat ≠ [] ∧ listStartsWith pat (a :: rest) = true
      · rw [if_pos hc, List.singleton_append, List.chain'_cons']
        exact ⟨fun y _ => Or.inl hr, ih (chain'_drop pat.length h)⟩
      · rw [if_neg hc, List.chain'_cons']
        rw [List.chain'_cons'] at h
        refine ⟨?_, ih h.2⟩
        intro y hy
        rcases head?_replaceAllF hy with hh | hh
        · exact h.1 y hh
        · subst hh; exact Or.inr hr

theorem sanitary_trim_collapse (w : Str) :
    Sanitary (jsTrim (collapseRuns jsWS w)) := by
  rw [jsTrim]
  refine ⟨?_, ?_, ?_, ?_⟩
  · intro c hc hws
    rw [List.mem_reverse] at hc
    have hc2 := (List.dropWhile_sublist jsWS).subset hc
    rw [List.mem_reverse] at hc2
    have hc3 := (List.dropWhile_sublist jsWS).subset hc2
    rcases mem_collapseRunsF hc3 with h | ⟨_, hfalse⟩
    · exact h
    · rw [hws] at hfalse; exact absurd hfalse (by simp)
  · have h0 : List.Chain' (fun a b => jsWS a = false ∨ jsWS b = false)
        (collapseRuns jsWS w) := chain'_collapseRunsF
    have h1 := chain'_dropWhile (p := jsWS) h0
    have h2 := (List.chain'_reverse.mpr (h1.imp fun a b hab => hab.symm))
    have h3 := chain'_dropWhile (p := jsWS) h2
    exact List.chain'_reverse.mpr (h3.imp fun a b hab => hab.symm)
  · intro c hc
    rw [List.head?_reverse] at hc
    have hne : ((collapseRuns jsWS w).dropWhile jsWS).reverse.dropWhile jsWS ≠ [] := by
      intro he; rw [he] at hc; simp at hc
    rw [getLast?_dropWhile_ne_nil hne, List.getLast?_reverse] at hc
    exact head?_dropWhile_false hc
  · intro c hc
    rw [List.getLast?_reverse] at hc
    exact head?_dropWhile_false hc

theorem sanitary_replaceAll {pat : Str} {r : Char}
    (hp : pat ≠ []) (hr : jsWS r = false) {s : Str} (hs : Sanitary s) :
    Sanitary (replaceAll pat (r :: []) s) := by
  obtain ⟨hmem, hchain, hhead, hlast⟩ := hs
  rw [replaceAll]
  refine ⟨?_, chain'_replaceAllF hr hchain, ?_, ?_⟩
  · intro c hc hws
    rcases mem_replaceAllF hc with h | h
    · exact hmem c h hws
    · rw [List.mem_singleton] at h
      subst h; rw [hws] at hr; exact absurd hr (by simp)
  · intro c hc
    rcases head?_replaceAllF hc with h | h
    · exact hhead c h
    · subst h; exact hr
  · intro c hc
    rcases getLast?_replaceAllF hp (Nat.le_refl _) hc with h | h
    · exact hlast c h
    · subst h; exact hr

theorem jsWS_commaSwap (c : Char) : jsWS (if c = ',' then ';' else c) = jsWS c := by
  by_cases hc : c = ','
  · subst hc; decide
  · rw [if_neg hc]

theorem sanitary_commaMap {s : Str} (hs : Sanitary s) : Sanitary (commaMap s) := by
  obtain ⟨hmem, hchain, hhead, hlast⟩ := hs
  rw [commaMap]
  refine ⟨?_, ?_, ?_, ?_⟩
  · intro c hc hws
    rcases List.mem_map.mp hc with ⟨x, hx, hfx⟩
    have hwx : jsWS x = true := by rw [← hws, ← hfx, jsWS_commaSwap]
    have hxs := hmem x hx hwx
    subst hxs
    rw [← hfx]
    rfl
  · rw [List.chain'_map]
    refine hchain.imp ?_
    intro a b hab
    rw [jsWS_commaSwap, jsWS_commaSwap]
    exact hab
  · intro c hc
    rw [List.head?_map] at hc
    rcases Option.map_eq_some'.mp hc with ⟨x, hx, hfx⟩
    rw [← hfx, jsWS_commaSwap]
    exact hhead x hx
  · intro c hc
    rw [List.getLast?_map] at hc
    rcases Option.map_eq_some'.mp hc with ⟨x, hx, hfx⟩
    rw [← hfx, jsWS_commaSwap]
    exact hlast x hx

theorem sanitizeCell_sanitary (v : Str) : Sanitary (sanitizeCell v) := by
  rw [sanitizeCell, decodeEntities]
  exact sanitary_commaMap
    (sanitary_replaceAll (by decide) (by decide)
      (sanitary_replaceAll (by decide) (by decide)
        (sanitary_replaceAll (by decide) (by decide)
          (sanitary_replaceAll (by decide) (by decide)
            (sanitary_replaceAll (by decide) (by decide)
              (sanitary_trim_collapse (collapseRuns isCRLF v)))))))

theorem sanitizeCell_comma_free (v : Str) : ',' ∉ sanitizeCell v := by
  rw [sanitizeCell]
  intro hc
  rcases List.mem_map.mp hc with ⟨x, _, hfx⟩
  by_cases hx : x = ','
  · rw [if_pos hx] at hfx; exact absurd hfx (by decide)
  · rw [if_neg hx] at hfx; exact hx hfx

theorem sanitizeCell_newline_free (v : Str) :
    '\n' ∉ sanitizeCell v ∧ '\r' ∉ sanitizeCell v := by
  constructor
  · intro hc
    have := (sanitizeCell_sanitary v).1 '\n' hc (by decide)
    exact absurd this (by decide)
  · intro hc
    have := (sanitizeCell_sanitary v).1 '\r' hc (by decide)
    exact absurd this (by decide)

theorem sanitizeCell_TRUE :
    sanitizeCell ('T' :: 'R' :: 'U' :: 'E' :: []) = 'T' :: 'R' :: 'U' :: 'E' :: [] := by decide

theorem sanitizeCell_nil : sanitizeCell [] = [] := rfl

attribute [irreducible] sanitizeCell

theorem splitOnChar_ne_nil (sep : Char) : ∀ (s : Str), splitOnChar sep s ≠ [] := by
  intro s
  cases s with
  | nil => simp [splitOnChar]
  | cons c rest =>
    rw [splitOnChar]
    cases h : splitOnChar sep rest with
    | nil => simp
    | cons hd tl =>
      by_cases hc : c = sep
      · simp [hc]
      · simp [hc]

theorem splitOnChar_not_mem {sep : Char} :
    ∀ {x : Str}, sep ∉ x → splitOnChar sep x = [x] := by
  intro x
  induction x with
  | nil => intro _; rfl
  | cons c rest ih =>
    intro h
    have hc : c ≠ sep := fun he => h (he ▸ List.mem_cons_self c rest)
    have hrest : sep ∉ rest := fun hm => h (List.mem_cons_of_mem c hm)
    rw [splitOnChar, ih hrest]
    simp [hc]

theorem splitOnChar_append {sep : Char} :
    ∀ {x r : Str}, sep ∉ x →
      splitOnChar sep (x ++ sep :: r) = x :: splitOnChar sep r := by
  intro x
  induction x with
  | nil =>
    intro r _
    rw [List.nil_append, splitOnChar]
    cases h : splitOnChar sep r with
    | nil => exact absurd h (splitOnChar_ne_nil sep r)
    | cons hd tl => simp
  | cons c x ih =>
    intro r h
    have hc : c ≠ sep := fun he => h (he ▸ List.mem_cons_self c x)
    have hx : sep ∉ x := fun hm => h (List.mem_cons_of_mem c hm)
    rw [List.cons_append, splitOnChar, ih hx]
    simp [hc]

theorem splitOnChar_joinWithSep {sep : Char} :
    ∀ {L : List Str}, L ≠ [] → (∀ x ∈ L, sep ∉ x) →
      splitOnChar sep (joinWithSep (sep :: []) L) = L := by
  intro L
  induction L with
  | nil => intro h _; exact absurd rfl h
  | cons x t ih =>
    intro _ hfree
    cases t with
    | nil =>
      simp only [joinWithSep]
      exact splitOnChar_not_mem (hfree x (List.mem_cons_self x []))
    | cons y tt =>
      simp only [joinWithSep]
      rw [List.append_assoc, List.singleton_append]
      rw [splitOnChar_append (hfree x (List.mem_cons_self x (y :: tt)))]
      rw [ih (by simp) (fun z hz => hfree z (List.mem_cons_of_mem x hz))]

theorem mem_joinWithSep {sep : Str} :
    ∀ {L : List Str} {c : Char}, c ∈ joinWithSep sep L → c ∈ sep ∨ ∃ x ∈ L, c ∈ x := by
  intro L
  induction L with
  | nil => intro c h; simp [joinWithSep] at h
  | cons x t ih =>
    intro c h
    cases t with
    | nil =>
      simp only [joinWithSep] at h
      exact Or.inr ⟨x, List.mem_cons_self x [], h⟩
    | cons y tt =>
      simp only [joinWithSep] at h
      rcases List.mem_append.mp h with h1 | h1
      · rcases List.mem_append.mp h1 with h2 | h2
        · exact Or.inr ⟨x, List.mem_cons_self x (y :: tt), h2⟩
        · exact Or.inl h2
      · rcases ih h1 with h2 | ⟨z, hz, hcz⟩
        · exact Or.inl h2
        · exact Or.inr ⟨z, List.mem_cons_of_mem x hz, hcz⟩

/-
The claims about `toCSV`.
-/

/-- C10: `toCSV` applied to an empty record list returns the empty string —
no header row is emitted when there is no data. -/
theorem toCSV_empty (chainName sourceSite : Str) : toCSV [] chainName sourceSite = [] := rfl

/-- C1: for non-empty data, the CSV splits on newlines into the 27-header
line followed by exactly one line per record, and every line splits on
commas back into its exact cells — 27 of them per record, in schema
order.  Columns are never reordered, dropped, or shifted. -/
theorem toCSV_structure (data : List Project) (chainName sourceSite : Str) (hne : data ≠ []) :
    splitOnChar '\n' (toCSV data chainName sourceSite) =
      joinWithSep (',' :: []) headers ::
        data.map (fun item => joinWithSep (',' :: []) (rowCells chainName sourceSite item))
    ∧ splitOnChar ',' (joinWithSep (',' :: []) headers) = headers
    ∧ headers.length = 27
    ∧ ∀ item : Project,
        splitOnChar ',' (joinWithSep (',' :: []) (rowCells chainName sourceSite item)) =
          rowCells chainName sourceSite item
        ∧ (rowCells chainName sourceSite item).length = 27 := by
  refine ⟨?_, ?_, ?_, ?_⟩
  · rw [toCSV, if_neg hne]
    apply splitOnChar_joinWithSep
    · simp
    · intro x hx
      rcases List.mem_cons.mp hx with h | h
      · subst h
        intro hmem
        rcases mem_joinWithSep hmem with h1 | ⟨z, hz, hcz⟩
        · revert h1; decide
        · have hall : ∀ z ∈ headers, '\n' ∉ z := by decide
          exact hall z hz hcz
      · rcases List.mem_map.mp h with ⟨item, _, hitem⟩
        subst hitem
        intro hmem
        rcases mem_joinWithSep hmem with h1 | ⟨z, hz, hcz⟩
        · revert h1; decide
        · rw [rowCells] at hz
          rcases List.mem_map.mp hz with ⟨raw, _, hraw⟩
          subst hraw
          exact (sanitizeCell_newline_free raw).1 hcz
  · apply splitOnChar_joinWithSep
    · decide
    · decide
  · decide
  · intro item
    constructor
    · apply splitOnChar_joinWithSep
      · rw [rowCells, rawCells]; simp
      · intro x hx
        rw [rowCells] at hx
        rcases List.mem_map.mp hx with ⟨raw, _, hraw⟩
        subst hraw
        exact sanitizeCell_comma_free raw
    · rw [rowCells, List.length_map]; rfl

/-- Witness for C1: the structure theorem applied to a concrete one-record
list. -/
theorem toCSV_structure_witness :
    splitOnChar '\n' (toCSV [wRowProject] [] []) =
      joinWithSep (',' :: []) headers ::
        [joinWithSep (',' :: []) (rowCells [] [] wRowProject)]
    ∧ (rowCells [] [] wRowProject).length = 27 := by
  have h := toCSV_structure [wRowProject] [] [] (by simp)
  exact ⟨h.1, (h.2.2.2 wRowProject).2⟩

/-- C5: every cell written by `toCSV` is the sanitizer applied to the raw
value, and thus contains no carriage return, no newline, and no comma,
every whitespace character in it is a plain space, no two whitespace
characters are adjacent, and it neither starts nor ends with
whitespace. -/
theorem toCSV_cells_sanitized (chainName sourceSite : Str) (item : Project) :
    rowCells chainName sourceSite item = (rawCells chainName sourceSite item).map sanitizeCell
    ∧ ∀ cell ∈ rowCells chainName sourceSite item,
        ',' ∉ cell ∧ '\n' ∉ cell ∧ '\r' ∉ cell ∧
        (∀ c ∈ cell, jsWS c = true → c = ' ') ∧
        List.Chain' (fun a b => jsWS a = false ∨ jsWS b = false) cell ∧
        (∀ c, cell.head? = some c → jsWS c = false) ∧
        (∀ c, cell.getLast? = some c → jsWS c = false) := by
  refine ⟨rfl, ?_⟩
  intro cell hcell
  rw [rowCells] at hcell
  rcases List.mem_map.mp hcell with ⟨raw, _, hraw⟩
  subst hraw
  obtain ⟨m, ch, hh, hl⟩ := sanitizeCell_sanitary raw
  exact ⟨sanitizeCell_comma_free raw, (sanitizeCell_newline_free raw).1,
    (sanitizeCell_newline_free raw).2, m, ch, hh, hl⟩

/-- Witness for C5: the sanitization theorem applied to a concrete cell of
a concrete record. -/
theorem toCSV_cells_sanitized_witness :
    ',' ∉ sanitizeCell (("Swap, \n Labs").data) ∧
    '\n' ∉ sanitizeCell (("Swap, \n Labs").data) := by
  have h := (toCSV_cells_sanitized [] [] wRowProject).2
    (sanitizeCell (("Swap, \n Labs").data)) (by with_unfolding_all decide)
  exact ⟨h.1, h.2.1⟩

/-- C6: every boolean flag column (Suspect USDT support?, Skip, Added,
Web3 but no stablecoin, General Stablecoin Adoption, Processed?) is written
as either `TRUE` or the empty string — never an explicit `FALSE`. -/
theorem toCSV_flag_columns (chainName sourceSite : Str) (item : Project) :
    flagCell ((rowCells chainName sourceSite item)[1]?) ∧
    flagCell ((rowCells chainName sourceSite item)[2]?) ∧
    flagCell ((rowCells chainName sourceSite item)[3]?) ∧
    flagCell ((rowCells chainName sourceSite item)[4]?) ∧
    flagCell ((rowCells chainName sourceSite item)[5]?) ∧
    flagCell ((rowCells chainName sourceSite item)[7]?) := by
  cases hd : defiCategories.contains item.category
  · have hmem : ¬item.category ∈ defiCategories := by
      simpa using hd
    simp [rowCells, rawCells, hmem, flagCell, sanitizeCell_TRUE, sanitizeCell_nil]
  · have hmem : item.category ∈ defiCategories := by
      simpa using hd
    simp [rowCells, rawCells, hmem, flagCell, sanitizeCell_TRUE, sanitizeCell_nil]

/-- C9: exactly one of the columns "Suspect USDT support?" (index 1) and
"Web3 but no stablecoin" (index 4) is `TRUE` and the other blank, decided
solely by membership of the record's category in the fixed DeFi category
set; no row leaves both blank. -/
theorem toCSV_defi_partition (chainName sourceSite : Str) (item : Project) :
    (defiCategories.contains item.category = true ∧
      (rowCells chainName sourceSite item)[1]? = some (("TRUE").data) ∧
      (rowCells chainName sourceSite item)[4]? = some []) ∨
    (defiCategories.contains item.category = false ∧
      (rowCells chainName sourceSite item)[1]? = some [] ∧
      (rowCells chainName sourceSite item)[4]? = some (("TRUE").data)) := by
  cases hd : defiCategories.contains item.category
  · have hmem : ¬item.category ∈ defiCategories := by
      simpa using hd
    right
    refine ⟨rfl, ?_, ?_⟩ <;>
      simp [rowCells, rawCells, hmem, sanitizeCell_TRUE, sanitizeCell_nil]
  · have hmem : item.category ∈ defiCategories := by
      simpa using hd
    left
    refine ⟨rfl, ?_, ?_⟩ <;>
      simp [rowCells, rawCells, hmem, sanitizeCell_TRUE, sanitizeCell_nil]

/-- C7: while a scrape run is in progress, a `startScraping` request is
answered with an explicit `Already scanning` failure by both the engine and
the DefiLlama content script, the state is untouched, and no second run is
started. -/
theorem startScraping_rejected_when_scanning (st : EngineState) (configFound : Bool)
    (h : st.isScanning = true) :
    handleStartScraping st configFound =
      (st, { success := false, error := some (("Already scanning").data) }, false)
    ∧ dlHandleStartScraping st =
      (st, { success := false, error := some (("Already scanning").data) }, false) := by
  rw [handleStartScraping, dlHandleStartScraping, h]
  simp

/-- Witness for C7: the rejection theorem applied to a concrete busy
state. -/
theorem startScraping_rejected_when_scanning_witness :
    handleStartScraping wBusyState true =
      (wBusyState, { success := false, error := some (("Already scanning").data) }, false)
    ∧ dlHandleStartScraping wBusyState =
      (wBusyState, { success := false, error := some (("Already scanning").data) }, false) :=
  startScraping_rejected_when_scanning wBusyState true rfl

/-- C8: when the enrichment API fetch fails — non-ok HTTP status or a
thrown network error — the scraped records are left exactly as they were
and the run still completes with the scraped data. -/
theorem enrichment_failure_preserves_records (ps : List Project) :
    executeEnrichment .httpError ps = ps ∧
    executeEnrichment .networkError ps = ps ∧
    runScraperFinish .httpError ps = ScrapeOutcome.complete ps ∧
    runScraperFinish .networkError ps = ScrapeOutcome.complete ps :=
  ⟨rfl, rfl, rfl, rfl⟩

theorem backfill_idem (old v : Str) : backfill (backfill old v) v = backfill old v := by
  unfold backfill
  by_cases h1 : old = [] ∧ v ≠ []
  · rw [if_pos h1]
    split <;> rfl
  · rw [if_neg h1, if_neg h1]

theorem backfill_ne (old v : Str) (h : old ≠ []) : backfill old v = old := by
  rw [backfill, if_neg]
  intro hc
  exact h hc.1

theorem enrichProject_name_slug (allData : List ApiItem) (p : Project) :
    (enrichProject allData p).name = p.name ∧ (enrichProject allData p).slug = p.slug := by
  cases hf : findApiData allData p with
  | none => simp [enrichProject, hf]
  | some a => simp [enrichProject, hf]

theorem findApiData_enrichProject (allData : List ApiItem) (p : Project) :
    findApiData allData (enrichProject allData p) = findApiData allData p := by
  have h := enrichProject_name_slug allData p
  rw [findApiData, findApiData, h.1, h.2]

theorem enrichProject_idem (allData : List ApiItem) (p : Project) :
    enrichProject allData (enrichProject allData p) = enrichProject allData p := by
  cases hf : findApiData allData p with
  | none =>
    have h1 : enrichProject allData p = p := by rw [enrichProject, hf]
    rw [h1]; exact h1
  | some a =>
    have hf2 : findApiData allData (enrichProject allData p) = some a := by
      rw [findApiData_enrichProject, hf]
    simp only [enrichProject, hf] at hf2
    apply Project.ext <;> simp [enrichProject, hf, hf2, backfill_idem]

/-- C4: with a fixed API response, running the engine's enrichment step
twice yields the same record list as running it once. -/
theorem executeEnrichment_idempotent (fetch : FetchOutcome) (ps : List Project) :
    executeEnrichment fetch (executeEnrichment fetch ps) = executeEnrichment fetch ps := by
  cases fetch with
  | ok allData =>
    simp only [executeEnrichment]
    induction ps with
    | nil => rfl
    | cons p t ih =>
      simp only [List.map_cons]
      rw [enrichProject_idem, ih]
  | httpError => rfl
  | networkError => rfl

theorem preservesNonEmpty_refl (p : Project) : preservesNonEmpty p p :=
  ⟨rfl, rfl, rfl, rfl, rfl, rfl, rfl, fun _ => rfl, fun _ => rfl, fun _ => rfl, fun _ => rfl⟩

theorem enrichProject_preserves (allData : List ApiItem) (p : Project) :
    preservesNonEmpty p (enrichProject allData p) := by
  cases hf : findApiData allData p with
  | none =>
    rw [enrichProject, hf]
    exact preservesNonEmpty_refl p
  | some a =>
    have he : enrichProject allData p =
        { p with website := backfill p.website a.url,
                 twitter := backfill p.twitter (prefixAt a.twitter),
                 description := backfill p.description a.description,
                 logo := backfill p.logo a.logo } := by
      rw [enrichProject, hf]
    rw [he, preservesNonEmpty]
    exact ⟨rfl, rfl, rfl, rfl, rfl, rfl, rfl,
      fun hne => backfill_ne _ _ hne, fun hne => backfill_ne _ _ hne,
      fun hne => backfill_ne _ _ hne, fun hne => backfill_ne _ _ hne⟩

/-- C3 (amended): the engine's `executeEnrichment` is backfill-only — for
every fetch outcome and project list, each output record preserves every
non-empty field of its input record; the DefiLlama content script's
`enrichWithApiData` per-project update preserves non-empty fields only
when the four fields it assigns were empty beforehand, as they are in its
scrape flow. -/
theorem enrichment_no_clobber :
    (∀ (fetch : FetchOutcome) (ps : List Project),
        List.Forall₂ preservesNonEmpty ps (executeEnrichment fetch ps)) ∧
    (∀ (allProtocols : List ApiItem) (p : Project),
        p.website = [] → p.twitter = [] → p.description = [] → p.logo = [] →
        preservesNonEmpty p (dlEnrichProject allProtocols p)) := by
  constructor
  · intro fetch ps
    cases fetch with
    | ok allData =>
      simp only [executeEnrichment]
      induction ps with
      | nil => exact List.Forall₂.nil
      | cons p t ih => exact List.Forall₂.cons (enrichProject_preserves allData p) ih
    | httpError => exact List.forall₂_same.mpr fun p _ => preservesNonEmpty_refl p
    | networkError => exact List.forall₂_same.mpr fun p _ => preservesNonEmpty_refl p
  · intro allProtocols p hw ht hd hl
    cases hf : findApiData allProtocols p with
    | none =>
      rw [dlEnrichProject, hf]
      exact preservesNonEmpty_refl p
    | some a =>
      have he : dlEnrichProject allProtocols p =
          { p with website := a.url,
                   twitter := if a.twitter = [] then [] else '@' :: a.twitter,
                   description := a.description, logo := a.logo } := by
        rw [dlEnrichProject, hf]
      rw [he, preservesNonEmpty]
      exact ⟨rfl, rfl, rfl, rfl, rfl, rfl, rfl,
        fun hne => absurd hw hne, fun hne => absurd ht hne,
        fun hne => absurd hd hne, fun hne => absurd hl hne⟩

/-- Witness for C3: the no-clobber theorem applied at concrete inputs. -/
theorem enrichment_no_clobber_witness :
    preservesNonEmpty wEmptyFieldsProject (dlEnrichProject [cexApiItem] wEmptyFieldsProject) ∧
    List.Forall₂ preservesNonEmpty [cexProject] (executeEnrichment .httpError [cexProject]) :=
  ⟨enrichment_no_clobber.2 [cexApiItem] wEmptyFieldsProject rfl rfl rfl rfl,
   enrichment_no_clobber.1 .httpError [cexProject]⟩

/-- C3 counterexample: `enrichWithApiData` overwrites a non-empty
`website` with the API value, so the claim as stated — every non-empty
field unchanged by the enrichment step, for every project list — is false
on the DefiLlama content script. -/
theorem enrichWithApiData_clobbers :
    cexProject.website = ("https://a.example").data ∧
    cexProject.website ≠ [] ∧
    (enrichWithApiData [cexApiItem] [cexProject]).map Project.website =
      [("https://b.example").data] ∧
    ("https://b.example").data ≠ ("https://a.example").data := by
  refine ⟨rfl, by decide, by decide, by decide⟩

attribute [irreducible] normalize_name normalize_domain

/-- C2: two records with equal normalized names but distinct non-empty
normalized domains are never grouped by the Deduplicator — both survive
deduplication unchanged. -/
theorem dedup_anti_false_merge (r1 r2 : StoreRecord)
    (_hname : normalize_name r1.name = normalize_name r2.name)
    (hd1 : normalize_domain r1.website ≠ [])
    (hd2 : normalize_domain r2.website ≠ [])
    (hne : normalize_domain r1.website ≠ normalize_domain r2.website) :
    dedup [r1, r2] = [r1, r2] := by
  have hsg : ¬sameGroup r1 r2 := by
    rw [sameGroup]
    rintro ⟨-, hd | hd | hd⟩
    · exact hne hd
    · exact hd1 hd
    · exact hd2 hd
  show dedupInsert (dedupInsert [] r1) r2 = [r1, r2]
  rw [dedupInsert]
  rw [dedupInsert, if_neg hsg, dedupInsert]

/-- Witness for C2: the anti-false-merge theorem applied to two concrete
same-name different-domain records. -/
theorem dedup_anti_false_merge_witness : dedup [wRecordA, wRecordB] = [wRecordA, wRecordB] :=
  dedup_anti_false_merge wRecordA wRecordB
    (by with_unfolding_all decide) (by with_unfolding_all decide)
    (by with_unfolding_all decide) (by with_unfolding_all decide)
